import Mathlib

/-!
Shallow embedding of the ABC/XYZ inventory-classification scripts
(`abc_analyzer.py`, `xyz_analyzer.py`).

Rows of the tabular data are `Record` values; float arithmetic is modelled
exactly over `ℚ`, except the XYZ standard deviation / coefficient of
variation, which involve a square root and therefore live in `ℝ`.

Table operations are modelled as follows:
* `groupby(keys).sum()`    — distinct keys (`uniqueFirst`) mapped to the sum
  of the matching rows' values (pandas sorts group keys; no claim below
  depends on the order of the aggregated rows, so first-occurrence order is
  kept);
* `sort_values`            — `List.insertionSort` by the same sort key;
* `transform('sum')`       — per-row sum over the rows sharing the period;
* per-group `cumsum`       — `abcCum`, a left-to-right pass that records for
  each row the sum of the values of the rows with the same period seen so
  far (groups need not be contiguous, exactly as in pandas);
* left `merge` on a unique key — `List.find?` lookup, `Option` for the NaN
  that a missed join key would produce.
-/

/-- One row of the tabular data handed to a classifier: columns
`SKU`, `Period`, `Value` (`Value` already numeric with nulls filled,
as both scripts do with `fillna(0.0)` before any computation). -/
structure Record where
  sku : String
  period : String
  value : ℚ
deriving DecidableEq

/-- Sum of the `Value` column of a list of rows. -/
def sumVals (l : List Record) : ℚ :=
  (l.map Record.value).sum

/-- Distinct elements of a list in order of first occurrence
(pandas `Series.unique`). -/
def uniqueFirst {α : Type} [DecidableEq α] : List α → List α
  | [] => []
  | x :: t => x :: uniqueFirst (t.filter (fun y => y ≠ x))
termination_by l => l.length
decreasing_by
  simp only [List.length_cons]
  exact Nat.lt_succ_of_le (List.length_filter_le _ _)

theorem mem_uniqueFirst {α : Type} [DecidableEq α] (l : List α) (x : α) :
    x ∈ uniqueFirst l ↔ x ∈ l := by
  induction l using uniqueFirst.induct with
  | case1 => simp [uniqueFirst]
  | case2 a t ih =>
    simp only [uniqueFirst, List.mem_cons, ih, List.mem_filter]
    by_cases hx : x = a
    · simp [hx]
    · simp [hx]

theorem nodup_uniqueFirst {α : Type} [DecidableEq α] (l : List α) :
    (uniqueFirst l).Nodup := by
  induction l using uniqueFirst.induct with
  | case1 => simp [uniqueFirst]
  | case2 a t ih =>
    rw [uniqueFirst]
    refine List.nodup_cons.2 ⟨?_, ih⟩
    intro hmem
    rcases (List.mem_filter.1 ((mem_uniqueFirst _ _).1 hmem)).2 with h
    simp at h

/-! ### ABC classifier (`abc_analyzer.py`, `assign_abc_groups`) -/

/-- Group keys of `df.groupby(['Period','SKU'])` — the distinct
`(Period, SKU)` pairs of the input. -/
def abcKeys (rows : List Record) : List (String × String) :=
  uniqueFirst (rows.map (fun r => (r.period, r.sku)))

/-- Step 2 of `assign_abc_groups`:
`df.groupby(['Period','SKU'], as_index=False)['Value'].sum()` —
one row per distinct `(Period, SKU)` key carrying the summed value. -/
def aggAbc (rows : List Record) : List Record :=
  (abcKeys rows).map
    (fun k => ⟨k.2, k.1, sumVals (rows.filter (fun r => (r.period, r.sku) = k))⟩)

/-- Sort key of `sort_values(['Period','Value'], ascending=[True, False])`:
period ascending, then value descending.  (The order among rows with equal
period and value is a tie-break the source leaves unspecified; the claims
below do not depend on it.) -/
def abcLE (u v : Record) : Prop :=
  u.period < v.period ∨ (u.period = v.period ∧ v.value ≤ u.value)

instance : DecidableRel abcLE := fun u v => by
  unfold abcLE; infer_instance

instance : IsTotal Record abcLE where
  total u v := by
    unfold abcLE
    rcases lt_trichotomy u.period v.period with h | h | h
    · exact Or.inl (Or.inl h)
    · rcases le_total v.value u.value with hv | hv
      · exact Or.inl (Or.inr ⟨h, hv⟩)
      · exact Or.inr (Or.inr ⟨h.symm, hv⟩)
    · exact Or.inr (Or.inl h)

instance : IsTrans Record abcLE where
  trans u v w h₁ h₂ := by
    unfold abcLE at *
    rcases h₁ with h₁ | ⟨h₁, h₁v⟩ <;> rcases h₂ with h₂ | ⟨h₂, h₂v⟩
    · exact Or.inl (h₁.trans h₂)
    · exact Or.inl (h₂ ▸ h₁)
    · exact Or.inl (h₁ ▸ h₂)
    · exact Or.inr ⟨h₁.trans h₂, h₂v.trans h₁v⟩

/-- Step 3 of `assign_abc_groups`: the sort itself. -/
def sortAbc (l : List Record) : List Record :=
  List.insertionSort abcLE l

/-- Per-group running sum, `agg_df.groupby('Period')['Value'].cumsum()`:
each row is paired with the sum of the values of the rows with its period
among the rows seen so far (`pre` is the already-processed part). -/
def abcCum (pre : List Record) : List Record → List (Record × ℚ)
  | [] => []
  | x :: t =>
      (x, sumVals ((pre ++ [x]).filter (fun y => y.period = x.period))) ::
        abcCum (pre ++ [x]) t

/-- Running cumulative sums of a list of rows starting from the offset
`acc`: what the per-period cumulative sum of `abcCum` looks like once
restricted to the rows of a single period. -/
def cumsFrom (acc : ℚ) : List Record → List (Record × ℚ)
  | [] => []
  | r :: t => (r, acc + r.value) :: cumsFrom (acc + r.value) t

/-- One row of the aggregated ABC working table `agg_df` after all derived
columns have been added. -/
structure AbcRow where
  sku : String
  period : String
  value : ℚ
  total : ℚ
  cum : ℚ
  cumPct : ℚ
  abcGroup : String
deriving DecidableEq

/-- The inner `classify_abc(cum_pct, total_val)` of `assign_abc_groups`,
with the captured thresholds made explicit. -/
def classify_abc (a_threshold b_threshold cum_pct total_val : ℚ) : String :=
  if total_val = 0 then "C"
  else if cum_pct ≤ a_threshold then "A"
  else if cum_pct ≤ b_threshold then "B"
  else "C"

/-- Derived columns of one aggregated row: `Total_Period_Value`
(`transform('sum')` over the period), `Cumulative_Percent`
(`np.where(total == 0, 1.0, cum / total)`), and `ABC_Group`. -/
def abcRowOf (a_threshold b_threshold : ℚ) (agg : List Record)
    (z : Record × ℚ) : AbcRow :=
  let tot := sumVals (agg.filter (fun y => y.period = z.1.period))
  let pct := if tot = 0 then 1 else z.2 / tot
  ⟨z.1.sku, z.1.period, z.1.value, tot, z.2, pct,
    classify_abc a_threshold b_threshold pct tot⟩

/-- Steps 2–4 of `assign_abc_groups`: the aggregated, sorted table with
totals, cumulative values, cumulative shares and `ABC_Group` labels. -/
def abcTable (a_threshold b_threshold : ℚ) (rows : List Record) :
    List AbcRow :=
  (abcCum [] (sortAbc (aggAbc rows))).map
    (abcRowOf a_threshold b_threshold (sortAbc (aggAbc rows)))

/-- Lookup side of the left merge on `['Period','SKU']` (the right table
`agg_df` has unique keys, so `find?` is the whole join). -/
def abcLookup (tbl : List AbcRow) (p s : String) : Option String :=
  (tbl.find? (fun t => t.period = p ∧ t.sku = s)).map AbcRow.abcGroup

/-- Steps 1–6 of `assign_abc_groups`: label every input row via the merge,
then fail (`RuntimeError` reporting the affected row count) if any row is
left without a label, else return the merged table.  The source validates
column presence and dtype (guaranteed here by the `Record` type) but
performs no validation of the thresholds themselves. -/
def assignAbcGroups (a_threshold b_threshold : ℚ) (rows : List Record) :
    Except String (List (Record × Option String)) :=
  let merged := rows.map
    (fun r => (r, abcLookup (abcTable a_threshold b_threshold rows) r.period r.sku))
  if merged.any (fun x => x.2.isNone) then
    Except.error ("ABC group assignment failed for " ++
      toString (merged.countP (fun x => x.2.isNone)) ++ " rows. Check input data.")
  else
    Except.ok merged

/-! ### XYZ classifier (`xyz_analyzer.py`, `assign_xyz_groups`) -/

/-- The `data_mode` parameter (`Literal["dense", "sparse"]`; any other
string is rejected by the source's entry validation). -/
inductive DataMode where
  | dense
  | sparse
deriving DecidableEq

/-- Group keys of `df_out.groupby(["SKU","Period"])` — the distinct
`(SKU, Period)` pairs of the input. -/
def xyzKeys (rows : List Record) : List (String × String) :=
  uniqueFirst (rows.map (fun r => (r.sku, r.period)))

/-- Step 2 of `assign_xyz_groups`:
`df_out.groupby(["SKU","Period"], as_index=False)["Value"].sum()`. -/
def aggXyz (rows : List Record) : List Record :=
  (xyzKeys rows).map
    (fun k => ⟨k.1, k.2, sumVals (rows.filter (fun r => (r.sku, r.period) = k))⟩)

/-- Step 3 of `assign_xyz_groups` (densification).  In `dense` mode the
full cross product of the distinct SKUs and distinct periods of the input
(`MultiIndex.from_product`) is left-merged with the aggregated values and
the gaps are filled with `0.0`; in `sparse` mode the aggregated rows are
used as they are. -/
def statsInput (mode : DataMode) (rows : List Record) : List Record :=
  match mode with
  | .dense =>
      (uniqueFirst (rows.map Record.sku)).flatMap (fun s =>
        (uniqueFirst (rows.map Record.period)).map (fun p =>
          ⟨s, p,
            (((aggXyz rows).find? (fun r => r.sku = s ∧ r.period = p)).map
              Record.value).getD 0⟩))
  | .sparse => aggXyz rows

/-- One row of `sku_stats`.  `var_value` is the sample variance (divisor
`n - 1`, the pandas `std` default) from which the standard deviation is
taken; it is `none` exactly where pandas `std` produces NaN (fewer than
two rows), and `std_value` below applies the source's `fillna(0.0)`. -/
structure SkuStat where
  sku : String
  n_periods : ℕ
  mean_value : ℚ
  var_value : Option ℚ
deriving DecidableEq

/-- Step 4 of `assign_xyz_groups`:
`groupby("SKU", as_index=False)["Value"].agg(n_periods="count",
mean_value="mean", std_value="std")`, the standard deviation kept as its
square (the sample variance). -/
def skuStats (l : List Record) : List SkuStat :=
  (uniqueFirst (l.map Record.sku)).map (fun s =>
    let vs := (l.filter (fun r => r.sku = s)).map Record.value
    let n := vs.length
    let m := vs.sum / (n : ℚ)
    ⟨s, n, m,
      if n < 2 then none
      else some ((vs.map (fun v => (v - m) ^ 2)).sum / ((n : ℚ) - 1))⟩)

/-- `std_value` after `sku_stats["std_value"].fillna(0.0)`: the square
root of the sample variance, `0` where pandas had NaN (a single row). -/
noncomputable def std_value (s : SkuStat) : ℝ :=
  match s.var_value with
  | none => 0
  | some v => Real.sqrt (v : ℝ)

/-- Step 5 of `assign_xyz_groups`:
`cv = np.where(mean == 0, 0.0, std / np.abs(mean))`, then
`replace([inf, -inf], nan)`.  In exact arithmetic the quotient is finite
whenever `mean ≠ 0`, so the replacement never fires here and `none`
(pandas NaN) is never produced; the `Option` records the column's
NaN-carrying type, which the classification step still inspects. -/
noncomputable def cv_value (s : SkuStat) : Option ℝ :=
  if s.mean_value = 0 then some 0
  else some (std_value s / |((s.mean_value : ℚ) : ℝ)|)

/-- Eligibility mask of step 6:
`(n_periods >= MIN_PERIODS) & (mean_value != 0)` with `MIN_PERIODS = 2`. -/
def eligibleStats (stats : List SkuStat) : List SkuStat :=
  stats.filter (fun s => 2 ≤ s.n_periods ∧ s.mean_value ≠ 0)

/-- `sku_stats.loc[is_eligible, 'cv'].dropna()`. -/
noncomputable def eligibleCvs (stats : List SkuStat) : List ℝ :=
  ((eligibleStats stats).map cv_value).reduceOption

/-- Ascending sort of a list of reals (what `Series.quantile` does
internally before interpolating). -/
noncomputable def sortR (l : List ℝ) : List ℝ :=
  List.insertionSort (fun u v => u ≤ v) l

/-- `Series.quantile(q)` with the default `interpolation='linear'`:
with `s` the sorted values and `h = q * (n - 1)`, the result is
`s[⌊h⌋] + (h - ⌊h⌋) * (s[⌊h⌋ + 1] - s[⌊h⌋])` (the second factor vanishes
when `h` is integral, so the out-of-range index is never read). -/
noncomputable def quantileLinear (q : ℝ) (l : List ℝ) : ℝ :=
  let s := sortR l
  let h : ℝ := q * ((l.length : ℝ) - 1)
  let k : ℕ := Nat.floor h
  s.getD k 0 + (h - (k : ℝ)) * (s.getD (k + 1) 0 - s.getD k 0)

/-- Step 6 of `assign_xyz_groups`: `(x_threshold, y_threshold)` — the
0.33 and 0.66 quantiles of the eligible cv values, or `(0.0, 0.0)` when
`eligible_cvs.empty`. -/
noncomputable def xyzThresholds (stats : List SkuStat) : ℝ × ℝ :=
  if (eligibleCvs stats).isEmpty then (0, 0)
  else (quantileLinear (33 / 100) (eligibleCvs stats),
        quantileLinear (66 / 100) (eligibleCvs stats))

/-- Step 7 of `assign_xyz_groups`: the `np.select` over the five
conditions in their listed order (first match wins), default `"Z"`.
Its inputs are the columns of one `sku_stats` row: `n_periods`,
`mean_value` and the possibly-NaN `cv`. -/
noncomputable def classifyXYZ (x_threshold y_threshold : ℝ) (n_periods : ℕ)
    (mean_value : ℚ) (cv : Option ℝ) : String :=
  if n_periods < 2 then ""
  else if mean_value = 0 then ""
  else
    match cv with
    | none => ""
    | some c =>
        if c ≤ x_threshold then "X"
        else if c ≤ y_threshold then "Y"
        else "Z"

/-- Steps 1–8 of `assign_xyz_groups`: per-SKU stats over the (dense or
sparse) stats input, automatic thresholds, classification, and the left
merge broadcasting each SKU's label back onto every original row
(`fillna("")` for a missed key). -/
noncomputable def assignXyzGroups (mode : DataMode) (rows : List Record) :
    List (Record × String) :=
  let stats := skuStats (statsInput mode rows)
  let t := xyzThresholds stats
  rows.map (fun r =>
    (r, (((stats.find? (fun s => s.sku = r.sku)).map
      (fun s => classifyXYZ t.1 t.2 s.n_periods s.mean_value (cv_value s))).getD "")))

/-! ### Helper lemmas: sums over filtered lists -/

theorem sumVals_nil : sumVals [] = 0 := rfl

theorem sumVals_cons (r : Record) (l : List Record) :
    sumVals (r :: l) = r.value + sumVals l := by
  simp [sumVals]

theorem sumVals_append (l₁ l₂ : List Record) :
    sumVals (l₁ ++ l₂) = sumVals l₁ + sumVals l₂ := by
  simp [sumVals]

theorem sumVals_nonneg (l : List Record) (h : ∀ r ∈ l, 0 ≤ r.value) :
    0 ≤ sumVals l := by
  refine List.sum_nonneg ?_
  intro x hx
  rcases List.mem_map.1 hx with ⟨r, hr, rfl⟩
  exact h r hr

theorem sumVals_filter_add (pr : Record → Bool) (l : List Record) :
    sumVals (l.filter pr) + sumVals (l.filter (fun r => !(pr r))) = sumVals l := by
  induction l with
  | nil => simp [sumVals]
  | cons r t ih =>
    cases h : pr r with
    | true =>
      simp [List.filter_cons, h, sumVals_cons]
      linarith [ih]
    | false =>
      simp [List.filter_cons, h, sumVals_cons]
      linarith [ih]

/-- Partition of a sum over fibers of a key function: if the distinct keys
`ks` cover the rows of `l`, summing the per-key filtered sums gives the
total sum. -/
theorem sum_fiber {α : Type} [DecidableEq α] (f : Record → α) :
    ∀ (ks : List α) (l : List Record), ks.Nodup → (∀ r ∈ l, f r ∈ ks) →
      (ks.map (fun k => sumVals (l.filter (fun r => f r = k)))).sum = sumVals l := by
  intro ks
  induction ks with
  | nil =>
    intro l _ hc
    cases l with
    | nil => simp [sumVals]
    | cons r t => exact absurd (hc r (List.mem_cons_self _ _)) (List.not_mem_nil _)
  | cons k ks ih =>
    intro l hnd hc
    have hknotin : k ∉ ks := (List.nodup_cons.1 hnd).1
    have hndt : ks.Nodup := (List.nodup_cons.1 hnd).2
    have hstep : ∀ k' ∈ ks,
        l.filter (fun r => f r = k') =
          (l.filter (fun r => !(decide (f r = k)))).filter (fun r => f r = k') := by
      intro k' hk'
      have hk'k : k' ≠ k := fun hEq => hknotin (hEq ▸ hk')
      rw [List.filter_filter]
      refine (List.filter_congr ?_).symm
      intro r _
      rcases eq_or_ne (f r) k' with h | h
      · have : f r ≠ k := by rw [h]; exact hk'k
        simp [h, this, hk'k]
      · simp [h]
    have hmapeq :
        (ks.map (fun k' => sumVals (l.filter (fun r => f r = k')))).sum =
          (ks.map (fun k' => sumVals
            ((l.filter (fun r => !(decide (f r = k)))).filter (fun r => f r = k')))).sum := by
      congr 1
      exact List.map_congr_left (fun k' hk' => congrArg sumVals (hstep k' hk'))
    have hcov' : ∀ r ∈ l.filter (fun r => !(decide (f r = k))), f r ∈ ks := by
      intro r hr
      have hrl := List.mem_filter.1 hr
      have hne : f r ≠ k := by simpa using hrl.2
      rcases hc r hrl.1 with hm
      rcases List.mem_cons.1 hm with h | h
      · exact absurd h hne
      · exact h
    calc (List.map (fun k' => sumVals (l.filter (fun r => f r = k'))) (k :: ks)).sum
        = sumVals (l.filter (fun r => f r = k)) +
            (ks.map (fun k' => sumVals (l.filter (fun r => f r = k')))).sum := by
          simp
      _ = sumVals (l.filter (fun r => f r = k)) +
            sumVals (l.filter (fun r => !(decide (f r = k)))) := by
          rw [hmapeq, ih _ hndt hcov']
      _ = sumVals l := sumVals_filter_add _ l

/-- Conservation of a per-period sum across a group-by-sum whose key
determines the period (via the projection `g`). -/
theorem groupSum_conserve {α : Type} [DecidableEq α] (f : Record → α)
    (g : α → String) (hg : ∀ r, g (f r) = r.period) (rows : List Record)
    (p : String) :
    (((uniqueFirst (rows.map f)).filter (fun k => g k = p)).map
        (fun k => sumVals (rows.filter (fun r => f r = k)))).sum =
      sumVals (rows.filter (fun r => r.period = p)) := by
  have hnd : ((uniqueFirst (rows.map f)).filter (fun k => g k = p)).Nodup :=
    (nodup_uniqueFirst _).filter _
  have hcov : ∀ r ∈ rows.filter (fun r => r.period = p),
      f r ∈ (uniqueFirst (rows.map f)).filter (fun k => g k = p) := by
    intro r hr
    have hrl := List.mem_filter.1 hr
    have hp : r.period = p := by simpa using hrl.2
    refine List.mem_filter.2 ⟨?_, by simp [hg r, hp]⟩
    exact (mem_uniqueFirst _ _).2 (List.mem_map.2 ⟨r, hrl.1, rfl⟩)
  have hptw : ∀ k ∈ (uniqueFirst (rows.map f)).filter (fun k => g k = p),
      (rows.filter (fun r => r.period = p)).filter (fun r => f r = k) =
        rows.filter (fun r => f r = k) := by
    intro k hk
    have hgk : g k = p := by simpa using (List.mem_filter.1 hk).2
    rw [List.filter_filter]
    refine List.filter_congr ?_
    intro r _
    rcases eq_or_ne (f r) k with h | h
    · have : r.period = p := by rw [← hg r, h, hgk]
      simp [h, this]
    · simp [h]
  calc (((uniqueFirst (rows.map f)).filter (fun k => g k = p)).map
        (fun k => sumVals (rows.filter (fun r => f r = k)))).sum
      = (((uniqueFirst (rows.map f)).filter (fun k => g k = p)).map
        (fun k => sumVals ((rows.filter (fun r => r.period = p)).filter
          (fun r => f r = k)))).sum := by
        congr 1
        exact List.map_congr_left
          (fun k hk => congrArg sumVals (hptw k hk).symm)
    _ = sumVals (rows.filter (fun r => r.period = p)) :=
        sum_fiber _ _ _ hnd hcov

/-- The ABC aggregation conserves each period's total value. -/
theorem aggAbc_filter_sum (rows : List Record) (p : String) :
    sumVals ((aggAbc rows).filter (fun r => r.period = p)) =
      sumVals (rows.filter (fun r => r.period = p)) := by
  have h := groupSum_conserve (fun r => (r.period, r.sku)) Prod.fst
    (fun r => rfl) rows p
  unfold aggAbc abcKeys
  rw [List.filter_map]
  rw [← h]
  simp only [sumVals, List.map_map]
  rfl

/-- The XYZ aggregation conserves each period's total value. -/
theorem aggXyz_filter_sum (rows : List Record) (p : String) :
    sumVals ((aggXyz rows).filter (fun r => r.period = p)) =
      sumVals (rows.filter (fun r => r.period = p)) := by
  have h := groupSum_conserve (fun r => (r.sku, r.period)) Prod.snd
    (fun r => rfl) rows p
  unfold aggXyz xyzKeys
  rw [List.filter_map]
  rw [← h]
  simp only [sumVals, List.map_map]
  rfl

theorem sortAbc_perm (l : List Record) : List.Perm (sortAbc l) l :=
  List.perm_insertionSort abcLE l

theorem sumVals_perm {l₁ l₂ : List Record} (h : List.Perm l₁ l₂) :
    sumVals l₁ = sumVals l₂ :=
  (h.map Record.value).sum_eq

/-- Sorting does not change a period's total value either. -/
theorem sortAbc_filter_sum (l : List Record) (p : String) :
    sumVals ((sortAbc l).filter (fun r => r.period = p)) =
      sumVals (l.filter (fun r => r.period = p)) :=
  sumVals_perm ((sortAbc_perm l).filter _)

/-! ### Helper lemmas: the ABC table -/

theorem mem_abcTable {a b : ℚ} {rows : List Record} {row : AbcRow}
    (h : row ∈ abcTable a b rows) :
    ∃ z ∈ abcCum [] (sortAbc (aggAbc rows)),
      row = abcRowOf a b (sortAbc (aggAbc rows)) z := by
  unfold abcTable at h
  rcases List.mem_map.1 h with ⟨z, hz, hrow⟩
  exact ⟨z, hz, hrow.symm⟩

theorem abcRowOf_period (a b : ℚ) (agg : List Record) (z : Record × ℚ) :
    (abcRowOf a b agg z).period = z.1.period := rfl

theorem abcRowOf_total (a b : ℚ) (agg : List Record) (z : Record × ℚ) :
    (abcRowOf a b agg z).total =
      sumVals (agg.filter (fun y => y.period = z.1.period)) := rfl

theorem abcRowOf_cumPct (a b : ℚ) (agg : List Record) (z : Record × ℚ) :
    (abcRowOf a b agg z).cumPct =
      (if (abcRowOf a b agg z).total = 0 then 1
       else (abcRowOf a b agg z).cum / (abcRowOf a b agg z).total) := rfl

theorem abcRowOf_group (a b : ℚ) (agg : List Record) (z : Record × ℚ) :
    (abcRowOf a b agg z).abcGroup =
      classify_abc a b (abcRowOf a b agg z).cumPct (abcRowOf a b agg z).total :=
  rfl

/-- Behaviour of `classify_abc` on the three bands, for a period with a
nonzero total and ordered thresholds. -/
theorem classify_abc_spec (a b pct tot : ℚ) (hab : a ≤ b) (htot : tot ≠ 0) :
    (pct = a → classify_abc a b pct tot = "A") ∧
    (a < pct → pct ≤ b → classify_abc a b pct tot = "B") ∧
    (b < pct → classify_abc a b pct tot = "C") := by
  unfold classify_abc
  rw [if_neg htot]
  refine ⟨?_, ?_, ?_⟩
  · intro h
    rw [if_pos (le_of_eq h)]
  · intro h₁ h₂
    rw [if_neg (not_le.2 h₁), if_pos h₂]
  · intro h
    rw [if_neg (not_le.2 (lt_of_le_of_lt hab h)), if_neg (not_le.2 h)]

/-- Full evaluation of the ABC table on a one-row input. -/
theorem abcTable_single (a b : ℚ) (s p : String) (v : ℚ) :
    abcTable a b [⟨s, p, v⟩] =
      [⟨s, p, v, v, v, if v = 0 then 1 else v / v,
        classify_abc a b (if v = 0 then 1 else v / v) v⟩] := by
  simp [abcTable, abcRowOf, abcCum, sortAbc, aggAbc, abcKeys, uniqueFirst,
    sumVals, List.insertionSort, List.orderedInsert]

/-- Full evaluation of `assign_abc_groups` on a one-row input. -/
theorem assignAbc_single (a b : ℚ) (s p : String) (v : ℚ) :
    assignAbcGroups a b [⟨s, p, v⟩] =
      Except.ok [(⟨s, p, v⟩,
        some (classify_abc a b (if v = 0 then 1 else v / v) v))] := by
  simp [assignAbcGroups, abcLookup, abcTable_single]

/-! ### Claim theorems: ABC classifier -/

/-- C1: In ABC classification, thresholds are inclusive upper bounds: every
row of the aggregated per-period table whose period total is nonzero is
labeled `A` when its cumulative share equals `a_threshold` (in fact
whenever it is at most `a_threshold`), `B` when it is strictly above
`a_threshold` and at most `b_threshold`, and `C` when it is strictly above
`b_threshold`. -/
theorem abc_thresholds_inclusive (a b : ℚ) (rows : List Record)
    (row : AbcRow) (hab : a ≤ b) (hrow : row ∈ abcTable a b rows)
    (htot : row.total ≠ 0) :
    (row.cumPct = a → row.abcGroup = "A") ∧
    (a < row.cumPct → row.cumPct ≤ b → row.abcGroup = "B") ∧
    (b < row.cumPct → row.abcGroup = "C") := by
  rcases mem_abcTable hrow with ⟨z, hz, rfl⟩
  rw [abcRowOf_group]
  exact classify_abc_spec a b _ _ hab htot

/-- Witness for C1 at a concrete input: a single SKU worth the whole
period, thresholds `a = b = 1`, cumulative share exactly `a` — labeled
`A`. -/
theorem abc_thresholds_inclusive_witness :
    (1 : ℚ) ≤ 1 ∧
    (⟨"S", "P", 2, 2, 2, 1, "A"⟩ : AbcRow) ∈ abcTable 1 1 [⟨"S", "P", 2⟩] ∧
    (⟨"S", "P", 2, 2, 2, 1, "A"⟩ : AbcRow).total ≠ 0 ∧
    (⟨"S", "P", 2, 2, 2, 1, "A"⟩ : AbcRow).abcGroup = "A" := by
  have hmem : (⟨"S", "P", 2, 2, 2, 1, "A"⟩ : AbcRow) ∈
      abcTable 1 1 [⟨"S", "P", 2⟩] := by
    rw [abcTable_single]
    norm_num [classify_abc]
  refine ⟨le_refl 1, hmem, by norm_num, ?_⟩
  exact (abc_thresholds_inclusive 1 1 [⟨"S", "P", 2⟩] _ (le_refl 1) hmem
    (by norm_num)).1 rfl

/-- C6: a period whose total value is exactly `0` raises no
division-by-zero: every aggregated row of that period has its cumulative
share defined as `1.0` and is labeled `C`. -/
theorem abc_zero_total_period (a b : ℚ) (rows : List Record) (p : String)
    (hz : sumVals (rows.filter (fun r => r.period = p)) = 0) :
    ∀ row ∈ abcTable a b rows, row.period = p →
      row.cumPct = 1 ∧ row.abcGroup = "C" := by
  intro row hrow hp
  rcases mem_abcTable hrow with ⟨z, hz', rfl⟩
  have hper : z.1.period = p := hp
  have htot : sumVals ((sortAbc (aggAbc rows)).filter
      (fun y => y.period = z.1.period)) = 0 := by
    rw [hper, sortAbc_filter_sum, aggAbc_filter_sum, hz]
  constructor
  · rw [abcRowOf_cumPct, abcRowOf_total, if_pos htot]
  · rw [abcRowOf_group]
    unfold classify_abc
    rw [abcRowOf_total, if_pos htot]

/-- Witness for C6 at a concrete input: one zero-valued row. -/
theorem abc_zero_total_period_witness :
    sumVals (List.filter (fun r => r.period = "P") [⟨"S", "P", 0⟩]) = 0 ∧
    (⟨"S", "P", 0, 0, 0, 1, "C"⟩ : AbcRow).cumPct = 1 ∧
    (⟨"S", "P", 0, 0, 0, 1, "C"⟩ : AbcRow).abcGroup = "C" := by
  have h0 : sumVals (List.filter (fun r => r.period = "P") [⟨"S", "P", 0⟩]) = 0 := by
    simp [sumVals]
  have hmem : (⟨"S", "P", 0, 0, 0, 1, "C"⟩ : AbcRow) ∈
      abcTable (4/5) (19/20) [⟨"S", "P", 0⟩] := by
    rw [abcTable_single]
    norm_num [classify_abc]
  exact ⟨h0, abc_zero_total_period (4/5) (19/20) [⟨"S", "P", 0⟩] "P" h0 _ hmem rfl⟩

/-- C8: both classifiers' group-by-sum aggregation steps conserve each
period's total value. -/
theorem agg_conserves_period_totals (rows : List Record) (p : String) :
    sumVals ((aggAbc rows).filter (fun r => r.period = p)) =
      sumVals (rows.filter (fun r => r.period = p)) ∧
    sumVals ((aggXyz rows).filter (fun r => r.period = p)) =
      sumVals (rows.filter (fun r => r.period = p)) :=
  ⟨aggAbc_filter_sum rows p, aggXyz_filter_sum rows p⟩

/-! ### Helper lemmas: the ABC join never misses a key -/

theorem abcRowOf_sku (a b : ℚ) (agg : List Record) (z : Record × ℚ) :
    (abcRowOf a b agg z).sku = z.1.sku := rfl

theorem abcCum_fst : ∀ (pre l : List Record), (abcCum pre l).map Prod.fst = l := by
  intro pre l
  induction l generalizing pre with
  | nil => rfl
  | cons x t ih => simpa [abcCum] using ih (pre ++ [x])

/-- Every `(Period, SKU)` key of the input has a row in the ABC table. -/
theorem abcTable_key_complete (a b : ℚ) (rows : List Record) (r : Record)
    (hr : r ∈ rows) :
    ∃ t ∈ abcTable a b rows, t.period = r.period ∧ t.sku = r.sku := by
  have hkey : (r.period, r.sku) ∈ abcKeys rows :=
    (mem_uniqueFirst _ _).2 (List.mem_map.2 ⟨r, hr, rfl⟩)
  have hagg : (⟨r.sku, r.period,
      sumVals (rows.filter (fun x => (x.period, x.sku) = (r.period, r.sku)))⟩ :
        Record) ∈ aggAbc rows := by
    unfold aggAbc
    exact List.mem_map.2 ⟨(r.period, r.sku), hkey, rfl⟩
  have hsorted : (⟨r.sku, r.period,
      sumVals (rows.filter (fun x => (x.period, x.sku) = (r.period, r.sku)))⟩ :
        Record) ∈ sortAbc (aggAbc rows) := (sortAbc_perm _).mem_iff.2 hagg
  have hcum : (⟨r.sku, r.period,
      sumVals (rows.filter (fun x => (x.period, x.sku) = (r.period, r.sku)))⟩ :
        Record) ∈ (abcCum [] (sortAbc (aggAbc rows))).map Prod.fst := by
    rw [abcCum_fst]
    exact hsorted
  rcases List.mem_map.1 hcum with ⟨z, hzmem, hzfst⟩
  refine ⟨abcRowOf a b (sortAbc (aggAbc rows)) z,
    List.mem_map.2 ⟨z, hzmem, rfl⟩, ?_, ?_⟩
  · rw [abcRowOf_period, hzfst]
  · rw [abcRowOf_sku, hzfst]

theorem abcLookup_isSome (a b : ℚ) (rows : List Record) (r : Record)
    (hr : r ∈ rows) :
    (abcLookup (abcTable a b rows) r.period r.sku).isSome := by
  rcases abcTable_key_complete a b rows r hr with ⟨t, ht, hper, hsku⟩
  unfold abcLookup
  rw [Option.isSome_map', List.find?_isSome]
  exact ⟨t, ht, by simp [hper, hsku]⟩

/-- `assign_abc_groups` always takes its success branch: the left join
finds a label for every row, so the output is complete and fully
labeled. -/
theorem assignAbc_ok (a b : ℚ) (rows : List Record) :
    assignAbcGroups a b rows =
      Except.ok (rows.map
        (fun r => (r, abcLookup (abcTable a b rows) r.period r.sku))) ∧
    ∀ x ∈ rows.map
        (fun r => (r, abcLookup (abcTable a b rows) r.period r.sku)),
      x.2.isSome := by
  have hall : ∀ x ∈ rows.map
      (fun r => (r, abcLookup (abcTable a b rows) r.period r.sku)),
      x.2.isSome := by
    intro x hx
    rcases List.mem_map.1 hx with ⟨r, hr, rfl⟩
    exact abcLookup_isSome a b rows r hr
  constructor
  · have hfalse : (rows.map
        (fun r => (r, abcLookup (abcTable a b rows) r.period r.sku))).any
        (fun x => x.2.isNone) = false := by
      rw [List.any_eq_false]
      intro x hx
      have hs := hall x hx
      cases hx2 : x.2 with
      | none => rw [hx2] at hs; simp at hs
      | some v => simp [hx2]
    unfold assignAbcGroups
    simp [hfalse]
  · exact hall

/-- C7: after the join step, `assign_abc_groups` always succeeds with one
output record per input row and every record carries a label for its
`(SKU, Period)` pair (so the fatal no-label branch, which would report the
affected row count instead of returning output, is never reached). -/
theorem abc_join_complete (a b : ℚ) (rows : List Record) :
    ∃ out, assignAbcGroups a b rows = Except.ok out ∧
      out.map Prod.fst = rows ∧ ∀ x ∈ out, x.2.isSome := by
  refine ⟨_, (assignAbc_ok a b rows).1, ?_, (assignAbc_ok a b rows).2⟩
  simp [List.map_map, Function.comp_def]

/-- C5 counterexample: with `a_threshold = 2` (outside `(0, 1]`) and
`b_threshold = 1/2 < a_threshold`, `assign_abc_groups` raises no error at
entry — it classifies normally and returns output. -/
theorem abc_threshold_validation_counterexample :
    ¬ ((0 : ℚ) < 2 ∧ (2 : ℚ) ≤ 1) ∧ (1/2 : ℚ) ≤ 2 ∧
    assignAbcGroups 2 (1/2) [⟨"S", "P", 1⟩] =
      Except.ok [(⟨"S", "P", 1⟩, some "A")] := by
  refine ⟨by norm_num, by norm_num, ?_⟩
  rw [assignAbc_single]
  norm_num [classify_abc]

/-- C5 (amended): `assign_abc_groups` performs no validation of its
threshold parameters: even when `a_threshold` or `b_threshold` lies
outside `(0, 1]` or `a_threshold >= b_threshold`, it returns a normal
classification output instead of failing. -/
theorem abc_no_threshold_validation (a b : ℚ) (rows : List Record)
    (_h : ¬ (0 < a ∧ a ≤ 1) ∨ ¬ (0 < b ∧ b ≤ 1) ∨ b ≤ a) :
    ∃ out, assignAbcGroups a b rows = Except.ok out :=
  ⟨_, (assignAbc_ok a b rows).1⟩

/-- Witness for C5 (amended) at the concrete invalid thresholds
`a = 2`, `b = 1/2`. -/
theorem abc_no_threshold_validation_witness :
    (¬ ((0 : ℚ) < 2 ∧ (2 : ℚ) ≤ 1) ∨ ¬ ((0 : ℚ) < 1/2 ∧ (1/2 : ℚ) ≤ 1) ∨
      (1/2 : ℚ) ≤ 2) ∧
    (∃ out, assignAbcGroups 2 (1/2) [⟨"S", "P", 1⟩] = Except.ok out) := by
  have h : ¬ ((0 : ℚ) < 2 ∧ (2 : ℚ) ≤ 1) ∨ ¬ ((0 : ℚ) < 1/2 ∧ (1/2 : ℚ) ≤ 1) ∨
      (1/2 : ℚ) ≤ 2 := by norm_num
  exact ⟨h, abc_no_threshold_validation 2 (1/2) [⟨"S", "P", 1⟩] h⟩

/-! ### Claim theorems: XYZ classifier -/

/-- C3: the XYZ label of a `sku_stats` row is decided by the first
matching rule, in order: fewer than 2 periods gives `""`, else zero mean
gives `""`, else an undefined (NaN) cv gives `""`, else `cv <= x_threshold`
gives `X`, else `cv <= y_threshold` gives `Y`, otherwise `Z`; in
particular a SKU with fewer than 2 periods or zero mean is never
labeled `Z`. -/
theorem xyz_priority_order (x y : ℝ) (n : ℕ) (mean : ℚ) (cv : Option ℝ) :
    (n < 2 → classifyXYZ x y n mean cv = "") ∧
    (2 ≤ n → mean = 0 → classifyXYZ x y n mean cv = "") ∧
    (2 ≤ n → mean ≠ 0 → cv = none → classifyXYZ x y n mean cv = "") ∧
    (∀ c, 2 ≤ n → mean ≠ 0 → cv = some c → c ≤ x →
      classifyXYZ x y n mean cv = "X") ∧
    (∀ c, 2 ≤ n → mean ≠ 0 → cv = some c → x < c → c ≤ y →
      classifyXYZ x y n mean cv = "Y") ∧
    (∀ c, 2 ≤ n → mean ≠ 0 → cv = some c → x < c → y < c →
      classifyXYZ x y n mean cv = "Z") := by
  unfold classifyXYZ
  refine ⟨?_, ?_, ?_, ?_, ?_, ?_⟩
  · intro h
    rw [if_pos h]
  · intro hn hm
    rw [if_neg (not_lt.2 hn), if_pos hm]
  · intro hn hm hcv
    rw [if_neg (not_lt.2 hn), if_neg hm, hcv]
  · intro c hn hm hcv hc
    rw [if_neg (not_lt.2 hn), if_neg hm, hcv]
    simp only [if_pos hc]
  · intro c hn hm hcv hxc hcy
    rw [if_neg (not_lt.2 hn), if_neg hm, hcv]
    simp only [if_neg (not_le.2 hxc), if_pos hcy]
  · intro c hn hm hcv hxc hyc
    rw [if_neg (not_lt.2 hn), if_neg hm, hcv]
    simp only [if_neg (not_le.2 hxc), if_neg (not_le.2 hyc)]

/-- C4: the XYZ thresholds are derived from the eligible SKUs only
(`n_periods >= 2` and nonzero mean, undefined cv values dropped): when no
SKU is eligible both thresholds are `0.0`, otherwise they are the 0.33 and
0.66 linear-interpolation quantiles of the eligible cv values. -/
theorem xyz_thresholds_from_eligible (stats : List SkuStat) :
    ((∀ s ∈ stats, ¬ (2 ≤ s.n_periods ∧ s.mean_value ≠ 0)) →
      xyzThresholds stats = (0, 0)) ∧
    (eligibleCvs stats ≠ [] →
      xyzThresholds stats =
        (quantileLinear (33/100) (eligibleCvs stats),
         quantileLinear (66/100) (eligibleCvs stats))) := by
  constructor
  · intro h
    have hfil : eligibleStats stats = [] := by
      rw [eligibleStats, List.filter_eq_nil_iff]
      intro s hs
      simpa using h s hs
    have hcvs : eligibleCvs stats = [] := by
      rw [eligibleCvs, hfil]
      rfl
    rw [xyzThresholds, hcvs]
    rfl
  · intro h
    rw [xyzThresholds, if_neg]
    rw [List.isEmpty_iff]
    exact h

/-- C10: `std_value` is the sample standard deviation (divisor `n - 1`,
the pandas default): over exactly two observed values `v1, v2` it equals
`|v1 - v2| / sqrt 2`, and the NaN it produces for a single observed value
is replaced by `0.0`. -/
theorem xyz_std_sample_divisor (v1 v2 v : ℚ) :
    ((skuStats [⟨"S", "P1", v1⟩, ⟨"S", "P2", v2⟩]).map std_value =
      [|(v1 : ℝ) - (v2 : ℝ)| / Real.sqrt 2]) ∧
    ((skuStats [⟨"S", "P1", v⟩]).map (fun s => (s.var_value, std_value s)) =
      [(none, 0)]) := by
  constructor
  · have h1 : skuStats [⟨"S", "P1", v1⟩, ⟨"S", "P2", v2⟩] =
        [⟨"S", 2, (v1 + v2) / 2,
          some (((v1 - (v1 + v2) / 2) ^ 2 + (v2 - (v1 + v2) / 2) ^ 2) / 1)⟩] := by
      simp [skuStats, uniqueFirst]
      norm_num
    rw [h1]
    simp only [List.map_cons, List.map_nil, std_value]
    congr 1
    rw [show (((v1 - (v1 + v2) / 2) ^ 2 + (v2 - (v1 + v2) / 2) ^ 2) / 1 : ℚ) =
      (v1 - v2) ^ 2 / 2 by ring]
    push_cast
    rw [Real.sqrt_div (sq_nonneg _), Real.sqrt_sq_eq_abs]
  · simp [skuStats, uniqueFirst, std_value]

/-- C2: with SKU `X1` valued `10` in periods `P1` and `P3` and absent from
`P2` (which another SKU occupies), dense mode fills the grid with a zero
row for `(X1, P2)` and computes `n_periods = 3`, while sparse mode uses
only the two observed pairs and computes `n_periods = 2`; the two modes
give `X1` different coefficients of variation. -/
theorem xyz_dense_vs_sparse :
    ((statsInput .dense [⟨"X1", "P1", 10⟩, ⟨"Y2", "P2", 5⟩, ⟨"X1", "P3", 10⟩]).filter
        (fun r => r.sku = "X1") =
      [⟨"X1", "P1", 10⟩, ⟨"X1", "P2", 0⟩, ⟨"X1", "P3", 10⟩]) ∧
    ((skuStats (statsInput .dense
        [⟨"X1", "P1", 10⟩, ⟨"Y2", "P2", 5⟩, ⟨"X1", "P3", 10⟩])).find?
        (fun s => s.sku = "X1") = some ⟨"X1", 3, 20/3, some (100/3)⟩) ∧
    ((skuStats (statsInput .sparse
        [⟨"X1", "P1", 10⟩, ⟨"Y2", "P2", 5⟩, ⟨"X1", "P3", 10⟩])).find?
        (fun s => s.sku = "X1") = some ⟨"X1", 2, 10, some 0⟩) ∧
    (((skuStats (statsInput .dense
        [⟨"X1", "P1", 10⟩, ⟨"Y2", "P2", 5⟩, ⟨"X1", "P3", 10⟩])).find?
        (fun s => s.sku = "X1")).map cv_value ≠
      ((skuStats (statsInput .sparse
        [⟨"X1", "P1", 10⟩, ⟨"Y2", "P2", 5⟩, ⟨"X1", "P3", 10⟩])).find?
        (fun s => s.sku = "X1")).map cv_value) := by
  have hagg : aggXyz [⟨"X1", "P1", 10⟩, ⟨"Y2", "P2", 5⟩, ⟨"X1", "P3", 10⟩] =
      [⟨"X1", "P1", 10⟩, ⟨"Y2", "P2", 5⟩, ⟨"X1", "P3", 10⟩] := by
    simp [aggXyz, xyzKeys, uniqueFirst, sumVals]
  have hdense : statsInput .dense
      [⟨"X1", "P1", 10⟩, ⟨"Y2", "P2", 5⟩, ⟨"X1", "P3", 10⟩] =
      [⟨"X1", "P1", 10⟩, ⟨"X1", "P2", 0⟩, ⟨"X1", "P3", 10⟩,
       ⟨"Y2", "P1", 0⟩, ⟨"Y2", "P2", 5⟩, ⟨"Y2", "P3", 0⟩] := by
    simp [statsInput, uniqueFirst, hagg, List.find?]
  have hsparse : statsInput .sparse
      [⟨"X1", "P1", 10⟩, ⟨"Y2", "P2", 5⟩, ⟨"X1", "P3", 10⟩] =
      [⟨"X1", "P1", 10⟩, ⟨"Y2", "P2", 5⟩, ⟨"X1", "P3", 10⟩] := hagg
  have hfd : (skuStats (statsInput .dense
      [⟨"X1", "P1", 10⟩, ⟨"Y2", "P2", 5⟩, ⟨"X1", "P3", 10⟩])).find?
      (fun s => s.sku = "X1") = some ⟨"X1", 3, 20/3, some (100/3)⟩ := by
    rw [hdense]
    simp [skuStats, uniqueFirst, sumVals, List.find?]
    norm_num
  have hfs : (skuStats (statsInput .sparse
      [⟨"X1", "P1", 10⟩, ⟨"Y2", "P2", 5⟩, ⟨"X1", "P3", 10⟩])).find?
      (fun s => s.sku = "X1") = some ⟨"X1", 2, 10, some 0⟩ := by
    rw [hsparse]
    simp [skuStats, uniqueFirst, sumVals, List.find?]
  refine ⟨by rw [hdense]; simp, hfd, hfs, ?_⟩
  rw [hfd, hfs, Option.map_some', Option.map_some']
  have h1 : cv_value ⟨"X1", 3, 20/3, some (100/3)⟩ =
      some (Real.sqrt ((100/3 : ℚ) : ℝ) / |((20/3 : ℚ) : ℝ)|) := by
    rw [cv_value, if_neg (by norm_num)]
    rfl
  have h2 : cv_value ⟨"X1", 2, 10, some 0⟩ = some 0 := by
    rw [cv_value, if_neg (by norm_num)]
    simp [std_value]
  rw [h1, h2]
  simp only [ne_eq, Option.some.injEq]
  intro hcontra
  have hpos : 0 < Real.sqrt ((100/3 : ℚ) : ℝ) / |((20/3 : ℚ) : ℝ)| := by
    apply div_pos
    · apply Real.sqrt_pos.2
      push_cast
      norm_num
    · rw [abs_pos]
      push_cast
      norm_num
  rw [hcontra] at hpos
  exact lt_irrefl 0 hpos

/-! ### Helper lemmas: cumulative shares along one period -/

theorem abcCum_filter (p : String) :
    ∀ (l pre : List Record),
      (abcCum pre l).filter (fun z => z.1.period = p) =
        cumsFrom (sumVals (pre.filter (fun r => r.period = p)))
          (l.filter (fun r => r.period = p)) := by
  intro l
  induction l with
  | nil => intro pre; rfl
  | cons x t ih =>
    intro pre
    by_cases hx : x.period = p
    · have hc : sumVals ((pre ++ [x]).filter (fun y => y.period = x.period)) =
          sumVals (pre.filter (fun r => r.period = p)) + x.value := by
        rw [hx, List.filter_append, sumVals_append]
        simp [sumVals, hx]
      have hc' : sumVals ((pre ++ [x]).filter (fun r => r.period = p)) =
          sumVals (pre.filter (fun r => r.period = p)) + x.value := by
        rw [List.filter_append, sumVals_append]
        simp [sumVals, hx]
      rw [abcCum]
      rw [List.filter_cons_of_pos (by simpa using hx)]
      rw [show (x :: t).filter (fun r => r.period = p) =
        x :: t.filter (fun r => r.period = p) from
        List.filter_cons_of_pos (by simpa using hx)]
      rw [cumsFrom, ih (pre ++ [x]), hc, hc']
    · rw [abcCum]
      rw [List.filter_cons_of_neg (by simpa using hx)]
      rw [show (x :: t).filter (fun r => r.period = p) =
        t.filter (fun r => r.period = p) from
        List.filter_cons_of_neg (by simpa using hx)]
      rw [ih (pre ++ [x]), List.filter_append]
      simp [sumVals, hx]

theorem mem_cumsFrom_fst :
    ∀ (l : List Record) (acc : ℚ) (z : Record × ℚ),
      z ∈ cumsFrom acc l → z.1 ∈ l := by
  intro l
  induction l with
  | nil => intro acc z hz; simp [cumsFrom] at hz
  | cons r t ih =>
    intro acc z hz
    rw [cumsFrom] at hz
    rcases List.mem_cons.1 hz with h | h
    · rw [h]; exact List.mem_cons_self _ _
    · exact List.mem_cons_of_mem _ (ih _ z h)

theorem cumsFrom_chain :
    ∀ (l : List Record) (acc : ℚ), (∀ r ∈ l, 0 ≤ r.value) →
      List.Chain' (fun a b : Record × ℚ => a.2 ≤ b.2) (cumsFrom acc l) := by
  intro l
  induction l with
  | nil => intro acc _; simp [cumsFrom]
  | cons r t ih =>
    intro acc h
    rw [cumsFrom]
    refine List.chain'_cons'.2
      ⟨?_, ih (acc + r.value) (fun x hx => h x (List.mem_cons_of_mem _ hx))⟩
    intro y hy
    cases t with
    | nil => simp [cumsFrom] at hy
    | cons s u =>
      rw [cumsFrom] at hy
      simp only [List.head?_cons, Option.mem_def, Option.some.injEq] at hy
      have hs := h s (List.mem_cons_of_mem _ (List.mem_cons_self _ _))
      rw [← hy]
      simp only
      linarith

theorem cumsFrom_getLast? :
    ∀ (l : List Record) (acc : ℚ), l ≠ [] →
      ∃ r, (cumsFrom acc l).getLast? = some (r, acc + sumVals l) := by
  intro l
  induction l with
  | nil => intro acc h; exact absurd rfl h
  | cons r t ih =>
    intro acc _
    cases t with
    | nil =>
      refine ⟨r, ?_⟩
      simp [cumsFrom, sumVals]
    | cons s u =>
      rcases ih (acc + r.value) (by simp) with ⟨r', hr'⟩
      refine ⟨r', ?_⟩
      rw [cumsFrom]
      have hexp : cumsFrom (acc + r.value) (s :: u) =
          (s, acc + r.value + s.value) :: cumsFrom (acc + r.value + s.value) u := rfl
      rw [hexp, List.getLast?_cons_cons, ← hexp, hr']
      simp only [Option.some.injEq, Prod.mk.injEq, sumVals_cons]
      exact ⟨trivial, by ring⟩

theorem abcRowOf_cum (a b : ℚ) (agg : List Record) (z : Record × ℚ) :
    (abcRowOf a b agg z).cum = z.2 := rfl

/-- The cumulative shares of the rows of one period, read off the ABC
table: the running sums of that period's sorted aggregated values, each
divided by the period total (or the constant `1` for a zero total). -/
theorem abcTable_filter_shares (a b : ℚ) (rows : List Record) (p : String) :
    ((abcTable a b rows).filter (fun t => t.period = p)).map AbcRow.cumPct =
      (cumsFrom 0 ((sortAbc (aggAbc rows)).filter (fun r => r.period = p))).map
        (fun z => if sumVals ((sortAbc (aggAbc rows)).filter
            (fun r => r.period = p)) = 0 then (1 : ℚ)
          else z.2 / sumVals ((sortAbc (aggAbc rows)).filter
            (fun r => r.period = p))) := by
  unfold abcTable
  rw [List.filter_map]
  simp only [Function.comp_def, abcRowOf_period, List.map_map]
  have h0 : sumVals (List.filter (fun r => r.period = p) ([] : List Record)) = 0 := rfl
  rw [abcCum_filter p (sortAbc (aggAbc rows)) [], h0]
  refine List.map_congr_left ?_
  intro z hz
  have hzp : z.1.period = p := by
    have h1 := mem_cumsFrom_fst _ _ _ hz
    simpa using (List.mem_filter.1 h1).2
  rw [abcRowOf_cumPct, abcRowOf_total, abcRowOf_cum, hzp]

theorem chain'_le_of_const {L : List ℚ} {c : ℚ} (h : ∀ x ∈ L, x = c) :
    List.Chain' (fun u v : ℚ => u ≤ v) L := by
  induction L with
  | nil => simp
  | cons x t ih =>
    refine List.chain'_cons'.2 ⟨?_, ih (fun u hu => h u (List.mem_cons_of_mem _ hu))⟩
    intro y hy
    have hyt : y ∈ t := List.mem_of_mem_head? hy
    rw [h x (List.mem_cons_self _ _), h y (List.mem_cons_of_mem _ hyt)]

/-- Every value of the sorted ABC aggregation is a sum of input values,
hence nonnegative for nonnegative input. -/
theorem sortAbc_aggAbc_value_nonneg (rows : List Record)
    (hnn : ∀ r ∈ rows, 0 ≤ r.value) :
    ∀ x ∈ sortAbc (aggAbc rows), 0 ≤ x.value := by
  intro x hx
  have hx' : x ∈ aggAbc rows := (sortAbc_perm _).mem_iff.1 hx
  unfold aggAbc at hx'
  rcases List.mem_map.1 hx' with ⟨k, _, rfl⟩
  refine sumVals_nonneg _ ?_
  intro r hr
  exact hnn r (List.mem_filter.1 hr).1

/-- A period that occurs in the input occurs in the sorted ABC
aggregation. -/
theorem sortAbc_aggAbc_period_occurs (rows : List Record) (p : String)
    (hp : p ∈ rows.map Record.period) :
    (sortAbc (aggAbc rows)).filter (fun r => r.period = p) ≠ [] := by
  rcases List.mem_map.1 hp with ⟨r, hr, hrp⟩
  have hkey : (r.period, r.sku) ∈ abcKeys rows :=
    (mem_uniqueFirst _ _).2 (List.mem_map.2 ⟨r, hr, rfl⟩)
  have hagg : (⟨r.sku, r.period,
      sumVals (rows.filter (fun x => (x.period, x.sku) = (r.period, r.sku)))⟩ :
        Record) ∈ aggAbc rows := by
    unfold aggAbc
    exact List.mem_map.2 ⟨(r.period, r.sku), hkey, rfl⟩
  have hsorted := (sortAbc_perm (aggAbc rows)).mem_iff.2 hagg
  refine List.ne_nil_of_mem (a := (⟨r.sku, r.period,
      sumVals (rows.filter (fun x => (x.period, x.sku) = (r.period, r.sku)))⟩ :
        Record)) ?_
  refine List.mem_filter.2 ⟨hsorted, ?_⟩
  simpa using hrp

/-- C9: for nonnegative input values, the cumulative shares of a period's
rows, read along the descending-by-value sorted order of the ABC table,
form a non-decreasing sequence whose last element is `1.0`; when the
period total is `0` every element is `1.0`. -/
theorem abc_cumshare_monotone (a b : ℚ) (rows : List Record) (p : String)
    (hnn : ∀ r ∈ rows, 0 ≤ r.value) (hp : p ∈ rows.map Record.period) :
    List.Chain' (fun u v : ℚ => u ≤ v)
      (((abcTable a b rows).filter (fun t => t.period = p)).map AbcRow.cumPct) ∧
    (((abcTable a b rows).filter (fun t => t.period = p)).map
      AbcRow.cumPct).getLast? = some 1 ∧
    (sumVals (rows.filter (fun r => r.period = p)) = 0 →
      ∀ x ∈ ((abcTable a b rows).filter (fun t => t.period = p)).map
        AbcRow.cumPct, x = 1) := by
  have hvals : ∀ x ∈ (sortAbc (aggAbc rows)).filter (fun r => r.period = p),
      0 ≤ x.value := fun x hx =>
    sortAbc_aggAbc_value_nonneg rows hnn x (List.mem_filter.1 hx).1
  have hTnn : 0 ≤ sumVals ((sortAbc (aggAbc rows)).filter
      (fun r => r.period = p)) := sumVals_nonneg _ hvals
  have hlp : (sortAbc (aggAbc rows)).filter (fun r => r.period = p) ≠ [] :=
    sortAbc_aggAbc_period_occurs rows p hp
  rw [abcTable_filter_shares]
  refine ⟨?_, ?_, ?_⟩
  · by_cases hT : sumVals ((sortAbc (aggAbc rows)).filter
        (fun r => r.period = p)) = 0
    · refine chain'_le_of_const (c := 1) ?_
      intro x hx
      rcases List.mem_map.1 hx with ⟨z, _, rfl⟩
      rw [if_pos hT]
    · have hTpos : 0 < sumVals ((sortAbc (aggAbc rows)).filter
          (fun r => r.period = p)) := lt_of_le_of_ne hTnn (Ne.symm hT)
      refine List.chain'_map_of_chain' _ ?_ (cumsFrom_chain _ 0 hvals)
      intro u v huv
      rw [if_neg hT, if_neg hT]
      exact (div_le_div_iff_of_pos_right hTpos).2 huv
  · rcases cumsFrom_getLast? _ 0 hlp with ⟨r0, hlast⟩
    rw [List.getLast?_map, hlast, Option.map_some']
    by_cases hT : sumVals ((sortAbc (aggAbc rows)).filter
        (fun r => r.period = p)) = 0
    · rw [if_pos hT]
    · rw [if_neg hT, zero_add, div_self hT]
  · intro h0 x hx
    have hT : sumVals ((sortAbc (aggAbc rows)).filter
        (fun r => r.period = p)) = 0 := by
      rw [sortAbc_filter_sum, aggAbc_filter_sum, h0]
    rcases List.mem_map.1 hx with ⟨z, _, rfl⟩
    rw [if_pos hT]

/-- Witness for C9 at a concrete one-row input. -/
theorem abc_cumshare_monotone_witness :
    (∀ r ∈ [(⟨"S", "P", 3⟩ : Record)], 0 ≤ r.value) ∧
    "P" ∈ [(⟨"S", "P", 3⟩ : Record)].map Record.period ∧
    (List.Chain' (fun u v : ℚ => u ≤ v)
      (((abcTable (4/5) (19/20) [⟨"S", "P", 3⟩]).filter
        (fun t => t.period = "P")).map AbcRow.cumPct) ∧
    (((abcTable (4/5) (19/20) [⟨"S", "P", 3⟩]).filter
      (fun t => t.period = "P")).map AbcRow.cumPct).getLast? = some 1 ∧
    (sumVals ([(⟨"S", "P", 3⟩ : Record)].filter (fun r => r.period = "P")) = 0 →
      ∀ x ∈ ((abcTable (4/5) (19/20) [⟨"S", "P", 3⟩]).filter
        (fun t => t.period = "P")).map AbcRow.cumPct, x = 1)) := by
  have h1 : ∀ r ∈ [(⟨"S", "P", 3⟩ : Record)], 0 ≤ r.value := by
    intro r hr
    simp only [List.mem_singleton] at hr
    rw [hr]
    norm_num
  have h2 : "P" ∈ [(⟨"S", "P", 3⟩ : Record)].map Record.period := by simp
  exact ⟨h1, h2, abc_cumshare_monotone (4/5) (19/20) [⟨"S", "P", 3⟩] "P" h1 h2⟩
